import Mathlib

/-!
Shallow embedding of the LegibleSync engine
(`src/realworld-backend-adonis/src/engine/Engine.ts`, types in `engine/types.ts`).

Modelling conventions:
* JS dynamic values are modelled by the flat inductive `Value`; records
  (`Record<string, any>`) are ordered association lists `Obj` whose lookup takes
  the first matching key, mirroring JS object field order.  The engine's claims
  never exercise nested objects or arrays, so `Value` omits them; the recursive
  branches of `replaceVariables` and `getNestedValue` are consequently vacuous
  and are noted where they are folded away.
* `async`/`await` sequencing is single-threaded in the source (§5 of the spec),
  so it is embedded as plain sequential state passing.
* Thrown JS exceptions are reified in `InvokeResult`: `conceptNotFound` is the
  `Concept not found` throw (raised before the `try` block, hence never followed
  by a sweep), `execError` is a concept `execute` failure (recorded on the
  record, sweep still runs at top level, then rethrown).
* TS object identity (mutating an `ActionRecord` shared by the log and the
  index) is embedded by storing records in the log and keying the index by
  position; a record's `id` field is its position at creation time.
* `uuidv4()` record ids are modelled by the record's position in the log; the
  `syncEdges` map `syncName -> uuid[]` is modelled as the list of sync names
  present as keys, which is the only property the engine reads from it.
* The loop-prevention signature `concept + ":" + action + ":" + JSON.stringify(input)`
  is modelled as the triple `(concept, action, input)`: with `Obj` an ordered
  field list this matches the insertion-order-sensitive `JSON.stringify`
  encoding; string encodings of distinct triples can collide when names contain
  `:`, a degenerate case no claim exercises.
-/

inductive Value where
  | str (s : String)
  | num (n : Int)
  | bool (b : Bool)
  | null
deriving DecidableEq, Repr

/-- A JS `Record<string, any>`: ordered association list, first key wins on lookup. -/
abbrev Obj := List (String × Value)

/-- JS object spread `\x7b...x, ...y\x7d`: x's fields (overridden by y where y has the
key, in x's order) followed by y's fields that are new. -/
def spread (x y : Obj) : Obj :=
  x.map (fun p => match y.lookup p.1 with | some v => (p.1, v) | none => p)
    ++ y.filter (fun p => (x.lookup p.1).isNone)

/-- Replace the element at position `n` (no-op when out of range). -/
def listModify {α : Type} : List α → Nat → (α → α) → List α
  | [], _, _ => []
  | x :: xs, 0, f => f x :: xs
  | x :: xs, n + 1, f => x :: listModify xs n f

/-- JS `Map.set`: replace the entry for the key if present, else append. -/
def listSet {β : Type} (m : List (String × β)) (k : String) (v : β) :
    List (String × β) :=
  if m.any (fun p => p.1 = k) then m.map (fun p => if p.1 = k then (k, v) else p)
  else m ++ [(k, v)]

/-- Engine.ts `matchRecord`: every field named in the pattern must be present in
`obj` with an equal value (`obj[k] !== v` fails also when `k` is absent). -/
def matchRecord (obj pattern : Obj) : Bool :=
  pattern.all (fun kv => obj.lookup kv.1 == some kv.2)

structure ActionRecord where
  id : Nat
  concept : String
  action : String
  input : Obj
  output : Option Obj := none
  flow : String
  syncEdges : List String := []
  syncTriggered : Bool := false
deriving DecidableEq, Repr, Inhabited

structure Pattern where
  concept : String
  action : String
  input : Obj := []
  output : Obj := []
deriving DecidableEq, Repr, Inhabited

structure Invocation where
  concept : String
  action : String
  input : Obj := []
deriving DecidableEq, Repr, Inhabited

/-- The `execute` capability of a concept, from types.ts (`Concept.execute`);
the concept's private state is outside the
engine's view (§4.1), so a concept is embedded as its `execute` function.
`Except.error` is a thrown `ActionError`. -/
def ConceptImpl := String → Obj → Except String Obj

/-- types.ts `SyncRule`.  `when`/`then` are Lean keywords, hence `whens`/`thens`;
`whereFilter` is the source's `where?.filter`. -/
structure SyncRule where
  name : String
  whens : List Pattern
  whereFilter : Option (Obj → Bool) := none
  thens : List Invocation

structure EngineState where
  concepts : List (String × ConceptImpl) := []
  actions : List ActionRecord := []
  syncs : List SyncRule := []
  syncTriggering : Bool := false
  firedSyncs : List String := []
  invokedActions : List (String × String × Obj) := []
  syncGraph : List (String × List String) := []
  actionIndex : List (String × List Nat) := []
  errorLog : List String := []
  warnLog : List String := []

/-- The `concept:action` index key built by `invoke` and `matchWhen`. -/
def recordKey (c a : String) : String := c ++ ":" ++ a

/-- Engine.ts `registerConcept`. -/
def registerConcept (s : EngineState) (name : String) (impl : ConceptImpl) :
    EngineState :=
  { s with concepts := listSet s.concepts name impl }

/-- Engine.ts `updateGraph`: ensure a node for the new sync, then add an edge
`sync -> otherSync` for every `then` of `sync` matching a `when` pattern of an
already-registered other sync (the source's `break` after the first matching
pattern adds each edge at most once, as does the `Set`). -/
def addEdge (g : List (String × List String)) (a b : String) :
    List (String × List String) :=
  match g.lookup a with
  | some ns => if b ∈ ns then g else listSet g a (ns ++ [b])
  | none => g ++ [(a, [b])]

def updateGraph (s : EngineState) (sync : SyncRule) : EngineState :=
  let g0 := if (s.syncGraph.lookup sync.name).isSome then s.syncGraph
            else s.syncGraph ++ [(sync.name, [])]
  let g := sync.thens.foldl
    (fun g thenInv =>
      s.syncs.foldl
        (fun g other =>
          if other.name == sync.name then g
          else if other.whens.any
              (fun p => p.concept == thenInv.concept && p.action == thenInv.action)
          then addEdge g sync.name other.name
          else g)
        g)
    g0
  { s with syncGraph := g }

structure DfsSt where
  visited : List String := []
  recStack : List String := []
  cycles : List String := []
deriving DecidableEq, Repr

/-- Engine.ts `detectCycles` inner `dfs`, with a fuel bound on recursion depth.
The recursion depth of the source dfs is bounded by the number of distinct
nodes (each level pushes a fresh node onto `recStack`), so any fuel of at least
that size makes the embedding agree with the source; `detectCycles` below
passes a bound that dominates it.  The neighbour loop stops at the first
neighbour whose dfs found a cycle, like the source's early `return true`, and
`recStack` keeps the node on that early-return path (the source skips the
`delete`). -/
def dfsNode (g : List (String × List String)) : Nat → String → DfsSt → Bool × DfsSt
  | 0, _, st => (false, st)
  | fuel + 1, node, st =>
    if node ∈ st.recStack then (true, { st with cycles := st.cycles ++ [node] })
    else if node ∈ st.visited then (false, st)
    else
      let st1 := { st with visited := st.visited ++ [node],
                           recStack := st.recStack ++ [node] }
      let neighbors := (g.lookup node).getD []
      let r := neighbors.foldl
        (fun acc n => if acc.1 then acc else dfsNode g fuel n acc.2) (false, st1)
      if r.1 then (true, { r.2 with cycles := r.2.cycles ++ [node] })
      else (false, { r.2 with recStack := r.2.recStack.erase node })

/-- Engine.ts `detectCycles`: dfs from each sync not yet visited, stopping at
the first cycle found (the source's `break`). -/
def detectCycles (s : EngineState) : List String :=
  let fuel := s.syncGraph.length + (s.syncGraph.map (fun p => p.2.length)).sum
      + s.syncs.length + 1
  let r := s.syncs.foldl
    (fun (acc : Bool × DfsSt) sync =>
      if acc.1 then acc
      else if sync.name ∈ acc.2.visited then acc
      else dfsNode s.syncGraph fuel sync.name acc.2)
    (false, {})
  r.2.cycles

/-- Engine.ts `registerSync`: push the rule, update the graph, warn (via
`console.warn`, modelled by `warnLog`) if a cycle was detected.  The source
performs no validation of the concept names the rule references. -/
def registerSyncCore (s : EngineState) : EngineState :=
  if (detectCycles s).isEmpty then s
  else { s with warnLog := s.warnLog ++
    ["Cycle detected in sync graph involving: " ++
      String.intercalate ", " (detectCycles s)] }

def registerSync (s : EngineState) (sync : SyncRule) : EngineState :=
  registerSyncCore (updateGraph { s with syncs := s.syncs ++ [sync] } sync)

inductive InvokeResult where
  | ok (output : Obj)
  | skipped
  | conceptNotFound (concept : String)
  | execError (msg : String)
deriving DecidableEq, Repr

/-- The fresh record pushed at the top of `invoke` (id = position in the log;
`output` is not yet set). -/
def newRecord (s : EngineState) (c a : String) (i : Obj) (flow : String)
    (st : Bool) : ActionRecord :=
  { id := s.actions.length, concept := c, action := a, input := i,
    output := none, flow := flow, syncEdges := [], syncTriggered := st }

/-- Append a record to the log and its position to the `concept:action` index
bucket. -/
def indexAdd (idx : List (String × List Nat)) (k : String) (v : Nat) :
    List (String × List Nat) :=
  match idx.lookup k with
  | some l => listSet idx k (l ++ [v])
  | none => idx ++ [(k, [v])]

def pushRecord (s : EngineState) (r : ActionRecord) : EngineState :=
  { s with actions := s.actions ++ [r],
           actionIndex := indexAdd s.actionIndex (recordKey r.concept r.action) r.id }

/-- Set the `output` of the record at position `id`. -/
def setOutput (s : EngineState) (id : Nat) (out : Obj) : EngineState :=
  { s with actions := listModify s.actions id (fun r => { r with output := some out }) }

/-- Engine.ts `invoke` without the trailing sweep (`triggerSyncs`) step, in
source order: clear `invokedActions` unless sync-triggered, push and index the
record, look up the concept (throw `Concept not found` when absent — the record
stays), check the `(concept, action, input)` loop-prevention signature (return
the `skipped` sentinel when present, without executing), else record the
signature and execute, setting `output` to the result or to the error marker.
The source also wraps non-object outputs as a `result` field; `execute` is
typed `Promise<Record<string, any>>` in types.ts, so that branch is vacuous. -/
def invokeInner (s0 : EngineState) (c a : String) (i : Obj) (flow : String)
    (syncTriggered : Bool) : InvokeResult × EngineState :=
  let s := if syncTriggered then s0 else { s0 with invokedActions := [] }
  let rec0 := newRecord s c a i flow syncTriggered
  let s := pushRecord s rec0
  match s.concepts.lookup c with
  | none => (.conceptNotFound c, s)
  | some impl =>
    if (c, a, i) ∈ s.invokedActions then (.skipped, s)
    else
      let s := { s with invokedActions := s.invokedActions ++ [(c, a, i)] }
      match impl a i with
      | .ok output => (.ok output, setOutput s rec0.id output)
      | .error msg => (.execError msg, setOutput s rec0.id [("error", Value.str msg)])

/-- Engine.ts `matchWhen`: candidates from the `concept:action` index bucket,
filtered by input constraints, output constraints (a missing output matches as
the empty object), and by not having a `syncEdges` entry for `syncName`. -/
def matchWhen (s : EngineState) (pattern : Pattern) (syncName : Option String) :
    List ActionRecord :=
  let key := recordKey pattern.concept pattern.action
  let candidateIds := ((s.actionIndex.lookup key).getD [])
  let candidates := candidateIds.filterMap (fun i => s.actions[i]?)
  candidates.filter (fun a =>
    matchRecord a.input pattern.input &&
    matchRecord ((a.output).getD []) pattern.output &&
    !(match syncName with | some n => a.syncEdges.contains n | none => false))

/-- The `allMatchingActions` collection loop of `tryFireSync`: `none` when some
pattern has no match (the source's early `return false`). -/
def collectMatches (s : EngineState) (name : String) :
    List Pattern → Option (List (List ActionRecord))
  | [] => some []
  | p :: ps =>
    let m := matchWhen s p (some name)
    if m.isEmpty then none
    else match collectMatches s name ps with
      | none => none
      | some rest => some (m :: rest)

/-- Per-candidate bindings: `\x7b...action.input, ...output\x7d` (missing output
treated as the empty object). -/
def bindingsOf (a : ActionRecord) : Obj := spread a.input ((a.output).getD [])

/-- Engine.ts `cartesianProduct`: `reduce` with `flatMap`/`map`, merging with
spread (later argument wins), seeded with the single empty object. -/
def cartesianProduct (arrays : List (List Obj)) : List Obj :=
  arrays.foldl (fun a b => a.flatMap (fun x => b.map (fun y => spread x y))) [[]]

/-- The binding combinations a rule evaluates: cartesian product of the
per-pattern bindings, then the optional `where.filter`. -/
def comboList (sync : SyncRule) (matched : List (List ActionRecord)) : List Obj :=
  let combos := cartesianProduct (matched.map (fun acts => acts.map bindingsOf))
  match sync.whereFilter with
  | some f => combos.filter f
  | none => combos

/-- Engine.ts `replaceVariables` on a single value: a string starting with `?`
is a variable reference resolved against the bindings (the source falls back to
`getNestedValue` for dotted paths; over flat values both resolve to the same
lookup, and an unresolved reference becomes `undefined`, modelled as `null`).
Arrays and nested objects do not occur in the flat value model, so those
recursive branches are vacuous. -/
def replaceVariables (v : Value) (bindings : Obj) : Value :=
  match v with
  | .str s => if s.startsWith "?" then (bindings.lookup (s.drop 1)).getD Value.null else v
  | _ => v

def replaceVarsObj (o : Obj) (bindings : Obj) : Obj :=
  o.map (fun p => (p.1, replaceVariables p.2 bindings))

/-- Mark the record at the position `rec.id` as having participated in sync
`name` (the source sets `action.syncEdges[sync.name] = [uuid]` when absent; the
mutation acts on the shared record object, i.e. the log entry). -/
def markStep (name : String) (s : EngineState) (a : ActionRecord) : EngineState :=
  let f := fun (r : ActionRecord) =>
    if name ∈ r.syncEdges then r
    else { r with syncEdges := r.syncEdges ++ [name] }
  { s with actions := listModify s.actions a.id f }

def markActions (s : EngineState) (name : String)
    (matched : List (List ActionRecord)) : EngineState :=
  matched.foldl (fun s acts => acts.foldl (markStep name) s) s

def addFired (s : EngineState) (name : String) : EngineState :=
  if name ∈ s.firedSyncs then s else { s with firedSyncs := s.firedSyncs ++ [name] }

/-- The `then` loop of `tryFireSync` for one combination: substitute variables,
invoke (sync-triggered; the `syncTriggering` flag is true for the whole sweep,
so the source's nested `this.invoke` call performs no sweep and is exactly
`invokeInner`), treat a normal return — including the
`skipped` sentinel — as success, and catch/log a thrown error (`console.error`
modelled by `errorLog`), continuing with the remaining invocations. -/
def fireThens (syncName : String) (flow : String) :
    EngineState → List Invocation → Obj → Bool → Bool × EngineState
  | s, [], _, fired => (fired, s)
  | s, t :: ts, binding, fired =>
    let input := replaceVarsObj t.input binding
    let (r, s) := invokeInner s t.concept t.action input flow true
    match r with
    | .ok _ => fireThens syncName flow s ts binding true
    | .skipped => fireThens syncName flow s ts binding true
    | .conceptNotFound c =>
      fireThens syncName flow
        { s with errorLog := s.errorLog ++
            ["Sync " ++ syncName ++ " failed: Concept " ++ c ++ " not found"] }
        ts binding fired
    | .execError m =>
      fireThens syncName flow
        { s with errorLog := s.errorLog ++ ["Sync " ++ syncName ++ " failed: " ++ m] }
        ts binding fired

/-- The combination loop of `tryFireSync`: run the thens, record the rule in
`firedSyncs` once `fired` is set, and mark every matched record (the source's
`simplified: mark all involved actions` step, performed on every combination
iteration regardless of the outcome of the thens). -/
def fireCombos (sync : SyncRule) (matched : List (List ActionRecord))
    (flow : String) : EngineState → List Obj → Bool → Bool × EngineState
  | s, [], fired => (fired, s)
  | s, combo :: rest, fired =>
    let (fired, s) := fireThens sync.name flow s sync.thens combo fired
    let s := if fired then addFired s sync.name else s
    let s := markActions s sync.name matched
    fireCombos sync matched flow s rest fired

/-- The flow used for all then-invocations: `allMatchingActions[0][0].flow`.
With a nonempty `when` list every matched list is nonempty, so the defaults are
never taken; on an empty `when` list the source would throw a `TypeError` here,
a degenerate case the theorems below exclude by hypothesis where it matters. -/
def flowOf (matched : List (List ActionRecord)) : String :=
  (((matched.getD 0 []).getD 0 default).flow)

/-- Engine.ts `tryFireSync`. -/
def tryFireSync (s : EngineState) (sync : SyncRule) : Bool × EngineState :=
  if sync.name ∈ s.firedSyncs then (false, s)
  else match collectMatches s sync.name sync.whens with
  | none => (false, s)
  | some matched =>
    fireCombos sync matched (flowOf matched) s (comboList sync matched) false

/-- Engine.ts `triggerSyncs`: set `syncTriggering`, one linear pass over the
registered rules in registration order, reset the flag (`finally`). -/
def triggerSyncs (s : EngineState) : EngineState :=
  let s1 := { s with syncTriggering := true }
  let s2 := s1.syncs.foldl (fun t sync => (tryFireSync t sync).2) s1
  { s2 with syncTriggering := false }

/-- Engine.ts `invoke`: the inner invocation, then — unless the result was the
early-returned `skipped` sentinel or the `Concept not found` throw (both occur
before the `try` block's sweep calls) — a sweep when not already inside one.
An `execError` still sweeps before rethrowing (the `catch` block). -/
def invokeFinish : InvokeResult × EngineState → InvokeResult × EngineState
  | (.skipped, s) => (.skipped, s)
  | (.conceptNotFound c, s) => (.conceptNotFound c, s)
  | (.ok o, s) => if s.syncTriggering then (.ok o, s) else (.ok o, triggerSyncs s)
  | (.execError m, s) =>
    if s.syncTriggering then (.execError m, s) else (.execError m, triggerSyncs s)

def invoke (s : EngineState) (c a : String) (i : Obj) (flow : String)
    (syncTriggered : Bool) : InvokeResult × EngineState :=
  invokeFinish (invokeInner s c a i flow syncTriggered)

/-- Engine.ts `getActionsByFlow`. -/
def getActionsByFlow (s : EngineState) (flow : String) : List ActionRecord :=
  s.actions.filter (fun a => a.flow == flow)

/-- The externally callable operations of the engine (§6 of the spec):
registration and top-level `invoke` (`getActionsByFlow` is read-only). -/
inductive EngineOp where
  | regConcept (name : String) (impl : ConceptImpl)
  | regSync (sync : SyncRule)
  | inv (concept action : String) (input : Obj) (flow : String)

def applyOp (s : EngineState) : EngineOp → EngineState
  | .regConcept n i => registerConcept s n i
  | .regSync r => registerSync s r
  | .inv c a i f => (invoke s c a i f false).2

def applyOps (s : EngineState) (ops : List EngineOp) : EngineState :=
  ops.foldl applyOp s

/-- The action index is consistent with the log: every bucket holds exactly the
positions of the log records whose `concept:action` key equals the bucket key,
in log order. -/
def IndexConsistent (s : EngineState) : Prop :=
  ∀ key, ((s.actionIndex.lookup key).getD []) =
    (List.range s.actions.length).filter
      (fun i => recordKey (s.actions.getD i default).concept
          (s.actions.getD i default).action == key)

/-- Record ids coincide with log positions (they are assigned that way at
creation and records are never moved). -/
def IdsOk (s : EngineState) : Prop :=
  ∀ i, i < s.actions.length → (s.actions.getD i default).id = i

/-- The identity of a record: everything except the mutable `output` and
`syncEdges` fields. -/
def stableView (r : ActionRecord) : Nat × String × String × Obj × String × Bool :=
  (r.id, r.concept, r.action, r.input, r.flow, r.syncTriggered)

/-! Concrete concepts, rules and states used by witnesses and counterexamples. -/

/-- A concept whose every action succeeds with output `\x7br: 1\x7d`. -/
def implOkC : ConceptImpl := fun _ _ => .ok [("r", Value.num 1)]

/-- A concept that throws on action `boom` and succeeds otherwise. -/
def implBoom : ConceptImpl := fun a _ =>
  if a == "boom" then .error "boom" else .ok []

def ruleR1 : SyncRule :=
  { name := "R1", whens := [{ concept := "C", action := "a" }],
    thens := [{ concept := "C", action := "a", input := [("x", Value.num 1)] }] }

/-- One top-level invoke of `(C, a, \x7bx: 1\x7d)` whose sync rule re-invokes the very
same signature inside the cascade, hitting the loop-prevention skip. -/
def c1State : EngineState :=
  (invoke (registerSync (registerConcept {} "C" implOkC) ruleR1)
    "C" "a" [("x", Value.num 1)] "f" false).2

/-- A state in the middle of a cascade where the signature `(C, a, \x7b\x7d)` has
already been invoked. -/
def w1State : EngineState :=
  { concepts := [("C", implOkC)], invokedActions := [("C", "a", ([] : Obj))] }

def ruleR2 : SyncRule :=
  { name := "R2", whens := [{ concept := "C", action := "a" }],
    thens := [{ concept := "D", action := "b" }] }

/-- One top-level invoke after which rule `R2` fires its single then-invocation
against the unregistered concept `D`, which throws; no then succeeds. -/
def c3State : EngineState :=
  (invoke (registerSync (registerConcept {} "C" implOkC) ruleR2)
    "C" "a" [] "f" false).2

/-- A log record for concept `C`, action `a`, used to seed small states. -/
def rec0C : ActionRecord :=
  { id := 0, concept := "C", action := "a", input := [],
    output := some [("r", Value.num 1)], flow := "f" }

def s5State : EngineState :=
  { concepts := [("C", implOkC)], actions := [rec0C], actionIndex := [("C:a", [0])] }

/-- The same one-record state built through the engine operations themselves
(one concept registration and one top-level invoke), so that index consistency
follows from the preservation lemmas. -/
def cState5 : EngineState :=
  (invoke (registerConcept {} "C" implOkC) "C" "a" [] "f" false).2

def ruleA : SyncRule :=
  { name := "A", whens := [{ concept := "c1", action := "a1" }],
    thens := [{ concept := "c2", action := "a2" }] }

def ruleB : SyncRule :=
  { name := "B", whens := [{ concept := "c2", action := "a2" }],
    thens := [{ concept := "c3", action := "a3" }] }

def ruleC : SyncRule :=
  { name := "C", whens := [{ concept := "c3", action := "a3" }],
    thens := [{ concept := "c1", action := "a1" }] }

/-- Rules `A -> B -> C -> A` (each rule's then targets the next rule's when)
registered in the order A, B, C. -/
def c7State : EngineState :=
  registerSync (registerSync (registerSync {} ruleA) ruleB) ruleC

def ruleRX : SyncRule :=
  { name := "RX", whens := [{ concept := "X", action := "a" }],
    thens := [{ concept := "X", action := "a" }] }

/-- Registration of a rule that references only the unregistered concept `X`. -/
def c8State : EngineState := registerSync {} ruleRX

def ruleR9 : SyncRule :=
  { name := "R9", whens := [{ concept := "C", action := "a" }],
    thens := [{ concept := "D", action := "b" },
              { concept := "C", action := "boom" }] }

/-- A state with one matched record where both thens of `ruleR9` fail: `D` is
unregistered and `C.boom` throws. -/
def s9State : EngineState :=
  { concepts := [("C", implBoom)], actions := [rec0C], actionIndex := [("C:a", [0])] }

/-- Two records whose distinct `(concept, action)` pairs build the same index
key `x:y:z`. -/
def c10State : EngineState :=
  (invoke (invoke (registerConcept (registerConcept {} "x:y" implOkC) "x" implOkC)
      "x:y" "z" [] "f" false).2
    "x" "y:z" [] "f" false).2

def st4a : EngineState := { concepts := [("C", implOkC)], syncTriggering := true }

def st4b : EngineState := { concepts := [("C", implOkC)] }

def st2 : EngineState := { firedSyncs := ["R1"] }

/-- How one engine step may change the state: the log only grows, surviving
records keep their identity and only accumulate `syncEdges` marks, fired-rule
names are never removed, and index consistency is preserved. -/
def Evolves (s t : EngineState) : Prop :=
  s.actions.length ≤ t.actions.length ∧
  (∀ i, i < s.actions.length →
    stableView (t.actions.getD i default) = stableView (s.actions.getD i default) ∧
    (s.actions.getD i default).syncEdges ⊆ (t.actions.getD i default).syncEdges) ∧
  s.firedSyncs ⊆ t.firedSyncs ∧
  (IndexConsistent s → IndexConsistent t)

/-! Helper lemmas about the list primitives. -/

theorem listModify_length {α : Type} (l : List α) (n : Nat) (f : α → α) :
    (listModify l n f).length = l.length := by
  induction l generalizing n with
  | nil => rfl
  | cons x xs ih =>
    cases n with
    | zero => rfl
    | succ m => simp [listModify, ih]

theorem listModify_getD_ne {α : Type} {l : List α} {n j : Nat} {f : α → α} {d : α}
    (h : j ≠ n) : (listModify l n f).getD j d = l.getD j d := by
  induction l generalizing n j with
  | nil => rfl
  | cons x xs ih =>
    cases n with
    | zero =>
      cases j with
      | zero => exact absurd rfl h
      | succ j => simp [listModify]
    | succ m =>
      cases j with
      | zero => simp [listModify]
      | succ j =>
        simp only [listModify, List.getD_cons_succ]
        exact ih (fun hh => h (by omega))

theorem listModify_getD_eq {α : Type} {l : List α} {n : Nat} {f : α → α} {d : α}
    (h : n < l.length) : (listModify l n f).getD n d = f (l.getD n d) := by
  induction l generalizing n with
  | nil => simp at h
  | cons x xs ih =>
    cases n with
    | zero => simp [listModify]
    | succ m =>
      simp only [listModify, List.getD_cons_succ]
      exact ih (by simpa using h)

theorem listModify_append_last {α : Type} (xs : List α) (x : α) (f : α → α) :
    listModify (xs ++ [x]) xs.length f = xs ++ [f x] := by
  induction xs with
  | nil => rfl
  | cons y ys ih => simp [listModify, ih]

theorem getD_append_self {α : Type} (xs : List α) (x : α) (d : α) :
    (xs ++ [x]).getD xs.length d = x := by
  induction xs with
  | nil => rfl
  | cons y ys ih => simp [ih]

theorem lookup_append {β : Type} (l₁ l₂ : List (String × β)) (k : String) :
    (l₁ ++ l₂).lookup k = ((l₁.lookup k).orElse fun _ => l₂.lookup k) := by
  induction l₁ with
  | nil => simp [List.lookup]
  | cons p ps ih =>
    cases p with
    | mk a b =>
      simp only [List.cons_append, List.lookup]
      cases h : (k == a) with
      | true => simp [Option.orElse]
      | false => simp [ih, Option.orElse]

theorem lookup_eq_none_of_not_any {β : Type} {m : List (String × β)} {k : String}
    (h : m.any (fun p => p.1 = k) = false) : m.lookup k = none := by
  induction m with
  | nil => rfl
  | cons p ps ih =>
    simp only [List.any_cons, Bool.or_eq_false_iff] at h
    cases p with
    | mk a b =>
      have ha : a ≠ k := by simpa using h.1
      have hk : (k == a) = false := beq_eq_false_iff_ne.mpr (Ne.symm ha)
      simp only [List.lookup, hk]
      exact ih h.2

theorem any_of_lookup_some {β : Type} {m : List (String × β)} {k : String} {v : β}
    (h : m.lookup k = some v) : m.any (fun p => p.1 = k) = true := by
  cases hh : m.any (fun p => p.1 = k) with
  | true => rfl
  | false => rw [lookup_eq_none_of_not_any hh] at h; exact absurd h (by simp)

theorem lookup_map_set_self {β : Type} {m : List (String × β)} {k : String}
    (v : β) (h : m.any (fun p => p.1 = k) = true) :
    (m.map (fun p => if p.1 = k then (k, v) else p)).lookup k = some v := by
  induction m with
  | nil => simp at h
  | cons p ps ih =>
    cases p with
    | mk a b =>
      by_cases hh : a = k
      · subst hh
        simp only [List.map_cons, if_true, eq_self_iff_true]
        simp [List.lookup]
      · have hk : (k == a) = false := beq_eq_false_iff_ne.mpr (Ne.symm hh)
        simp only [List.any_cons] at h
        have h2 : ps.any (fun p => p.1 = k) = true := by
          cases h3 : ps.any (fun p => p.1 = k) with
          | true => rfl
          | false => rw [h3] at h; simp [hh] at h
        simp only [List.map_cons]
        rw [if_neg hh]
        simp only [List.lookup, hk]
        exact ih h2

theorem lookup_map_set_ne {β : Type} (m : List (String × β)) {k k' : String}
    (v : β) (h : k' ≠ k) :
    (m.map (fun p => if p.1 = k then (k, v) else p)).lookup k' = m.lookup k' := by
  induction m with
  | nil => rfl
  | cons p ps ih =>
    cases p with
    | mk a b =>
      by_cases hh : a = k
      · subst hh
        have h1 : (k' == a) = false := beq_eq_false_iff_ne.mpr h
        simp only [List.map_cons, if_pos rfl]
        simp only [List.lookup, h1]
        exact ih
      · simp only [List.map_cons, if_neg hh]
        simp only [List.lookup]
        cases h2 : (k' == a) with
        | true => rfl
        | false => exact ih

theorem listSet_lookup {β : Type} (m : List (String × β)) (k : String) (v : β)
    (k' : String) (hsome : m.any (fun p => p.1 = k) = true) :
    (listSet m k v).lookup k' = if k' = k then some v else m.lookup k' := by
  unfold listSet
  rw [if_pos hsome]
  by_cases h : k' = k
  · subst h; rw [if_pos rfl]; exact lookup_map_set_self v hsome
  · rw [if_neg h]; exact lookup_map_set_ne m v h

theorem listSet_lookup_new {β : Type} (m : List (String × β)) (k : String) (v : β)
    (k' : String) (hnone : m.any (fun p => p.1 = k) = false) :
    (listSet m k v).lookup k' = if k' = k then some v else m.lookup k' := by
  unfold listSet
  rw [if_neg (by simp [hnone])]
  rw [lookup_append]
  by_cases h : k' = k
  · subst h
    rw [lookup_eq_none_of_not_any hnone]
    simp [List.lookup, Option.orElse]
  · rw [if_neg h]
    have h1 : (k' == k) = false := beq_eq_false_iff_ne.mpr h
    cases h2 : m.lookup k' with
    | some w => simp [Option.orElse, h2]
    | none => simp [Option.orElse, h2, List.lookup, h1]

theorem indexAdd_lookup (idx : List (String × List Nat)) (k : String) (v : Nat)
    (k' : String) :
    (indexAdd idx k v).lookup k' =
      if k' = k then some (((idx.lookup k).getD []) ++ [v]) else idx.lookup k' := by
  unfold indexAdd
  cases h : idx.lookup k with
  | some l =>
    rw [listSet_lookup _ _ _ _ (any_of_lookup_some h)]
    simp [h]
  | none =>
    rw [lookup_append]
    by_cases hk : k' = k
    · subst hk
      rw [h]
      simp [List.lookup, Option.orElse]
    · have h1 : (k' == k) = false := beq_eq_false_iff_ne.mpr hk
      rw [if_neg hk]
      cases h2 : idx.lookup k' with
      | some w => simp [Option.orElse, h2]
      | none => simp [Option.orElse, h2, List.lookup, h1]

/-! Index consistency: how it survives appends and in-place record updates. -/

theorem indexConsistent_congr {s t : EngineState}
    (hidx : t.actionIndex = s.actionIndex)
    (hlen : t.actions.length = s.actions.length)
    (hkey : ∀ i, i < s.actions.length →
      (t.actions.getD i default).concept = (s.actions.getD i default).concept ∧
      (t.actions.getD i default).action = (s.actions.getD i default).action)
    (h : IndexConsistent s) : IndexConsistent t := by
  intro key
  rw [hidx, hlen, h key]
  apply List.filter_congr
  intro i hi
  have hi' : i < s.actions.length := List.mem_range.mp hi
  rw [(hkey i hi').1, (hkey i hi').2]

theorem indexConsistent_append {s t : EngineState} (r : ActionRecord)
    (hid : r.id = s.actions.length)
    (hact : t.actions = s.actions ++ [r])
    (hidx : t.actionIndex = indexAdd s.actionIndex (recordKey r.concept r.action) r.id)
    (h : IndexConsistent s) : IndexConsistent t := by
  intro key
  rw [hidx, indexAdd_lookup, hact]
  have hlen : (s.actions ++ [r]).length = s.actions.length + 1 := by simp
  rw [hlen, List.range_succ, List.filter_append]
  have hold : (List.range s.actions.length).filter
      (fun i => recordKey ((s.actions ++ [r]).getD i default).concept
        ((s.actions ++ [r]).getD i default).action == key) =
      (List.range s.actions.length).filter
      (fun i => recordKey (s.actions.getD i default).concept
        (s.actions.getD i default).action == key) := by
    apply List.filter_congr
    intro i hi
    have hi' : i < s.actions.length := List.mem_range.mp hi
    rw [List.getD_append _ _ _ _ hi']
  have hlast : (s.actions ++ [r]).getD s.actions.length default = r :=
    getD_append_self _ _ _
  by_cases hk : key = recordKey r.concept r.action
  · rw [if_pos hk, hold, ← h key]
    have : (recordKey ((s.actions ++ [r]).getD s.actions.length default).concept
        ((s.actions ++ [r]).getD s.actions.length default).action == key) = true := by
      rw [hlast, hk]
      exact beq_self_eq_true _
    simp only [List.filter_cons, List.filter_nil, this, hid]
    simp [hk]
  · rw [if_neg hk, hold, ← h key]
    have : (recordKey ((s.actions ++ [r]).getD s.actions.length default).concept
        ((s.actions ++ [r]).getD s.actions.length default).action == key) = false := by
      rw [hlast]
      exact beq_eq_false_iff_ne.mpr (fun hh => hk hh.symm)
    simp only [List.filter_cons, List.filter_nil, this]
    simp

/-! Anatomy of `invokeInner`: it always appends exactly one record (with the
next position as id) and one index entry, touching nothing else but
`invokedActions`. -/

theorem invokeInner_state (s0 : EngineState) (c a : String) (i : Obj)
    (flow : String) (st : Bool) :
    ∃ (out : Option Obj) (inv : List (String × String × Obj)),
      (invokeInner s0 c a i flow st).2 =
        { s0 with
            actions := s0.actions ++
              [{ id := s0.actions.length, concept := c, action := a, input := i,
                 output := out, flow := flow, syncEdges := [], syncTriggered := st }],
            actionIndex := indexAdd s0.actionIndex (recordKey c a) s0.actions.length,
            invokedActions := inv } := by
  unfold invokeInner newRecord pushRecord
  cases st with
  | false =>
    simp only [Bool.false_eq_true, if_neg, ite_false]
    cases hl : ({ s0 with invokedActions := [] } : EngineState).concepts.lookup c with
    | none =>
      refine ⟨none, [], ?_⟩
      simp [hl]
    | some impl =>
      simp only [hl]
      by_cases hmem : (c, a, i) ∈ (([] : List (String × String × Obj)))
      · simp at hmem
      · simp only [if_neg hmem]
        cases he : impl a i with
        | ok output =>
          refine ⟨some output, [(c, a, i)], ?_⟩
          simp only [he, setOutput]
          rw [show (({ s0 with invokedActions := [] } : EngineState).actions) = s0.actions from rfl]
          rw [listModify_append_last]
          rfl
        | error msg =>
          refine ⟨some [("error", Value.str msg)], [(c, a, i)], ?_⟩
          simp only [he, setOutput]
          rw [show (({ s0 with invokedActions := [] } : EngineState).actions) = s0.actions from rfl]
          rw [listModify_append_last]
          rfl
  | true =>
    simp only [ite_true]
    cases hl : s0.concepts.lookup c with
    | none =>
      refine ⟨none, s0.invokedActions, ?_⟩
      simp [hl]
    | some impl =>
      simp only [hl]
      by_cases hmem : (c, a, i) ∈ s0.invokedActions
      · rw [if_pos hmem]
        exact ⟨none, s0.invokedActions, rfl⟩
      · rw [if_neg hmem]
        cases he : impl a i with
        | ok output =>
          refine ⟨some output, s0.invokedActions ++ [(c, a, i)], ?_⟩
          simp only [he, setOutput]
          rw [listModify_append_last]
        | error msg =>
          refine ⟨some [("error", Value.str msg)], s0.invokedActions ++ [(c, a, i)], ?_⟩
          simp only [he, setOutput]
          rw [listModify_append_last]


/-! The `Evolves` relation and its closure under every engine step. -/

theorem evolves_refl (s : EngineState) : Evolves s s :=
  ⟨Nat.le_refl _, fun _ _ => ⟨rfl, fun _ h => h⟩, fun _ h => h, id⟩

theorem evolves_trans {s t u : EngineState} (h1 : Evolves s t) (h2 : Evolves t u) :
    Evolves s u := by
  obtain ⟨l1, g1, f1, i1⟩ := h1
  obtain ⟨l2, g2, f2, i2⟩ := h2
  refine ⟨Nat.le_trans l1 l2, ?_, fun x hx => f2 (f1 hx), fun hc => i2 (i1 hc)⟩
  intro i hi
  have hi2 : i < t.actions.length := Nat.lt_of_lt_of_le hi l1
  exact ⟨((g2 i hi2).1).trans ((g1 i hi).1),
    fun x hx => (g2 i hi2).2 ((g1 i hi).2 hx)⟩

theorem evolves_of_actions_eq {s t : EngineState}
    (hact : t.actions = s.actions) (hidx : t.actionIndex = s.actionIndex)
    (hf : s.firedSyncs ⊆ t.firedSyncs) : Evolves s t := by
  refine ⟨by rw [hact], ?_, hf, ?_⟩
  · intro i _
    rw [hact]
    exact ⟨rfl, fun _ hx => hx⟩
  · intro hc
    exact indexConsistent_congr hidx (by rw [hact])
      (fun i _ => by rw [hact]; exact ⟨rfl, rfl⟩) hc

theorem evolves_errorLog (s : EngineState) (msg : String) :
    Evolves s { s with errorLog := s.errorLog ++ [msg] } :=
  evolves_of_actions_eq rfl rfl (fun _ hx => hx)

theorem evolves_append_record {s t : EngineState} (r : ActionRecord)
    (hid : r.id = s.actions.length)
    (hact : t.actions = s.actions ++ [r])
    (hidx : t.actionIndex = indexAdd s.actionIndex (recordKey r.concept r.action) r.id)
    (hf : s.firedSyncs ⊆ t.firedSyncs) : Evolves s t := by
  refine ⟨by rw [hact]; simp, ?_, hf, ?_⟩
  · intro j hj
    rw [hact, List.getD_append _ _ _ _ hj]
    exact ⟨rfl, fun _ hx => hx⟩
  · intro hc
    exact indexConsistent_append r hid hact hidx hc

theorem evolves_invokeInner (s : EngineState) (c a : String) (i : Obj)
    (flow : String) (st : Bool) : Evolves s (invokeInner s c a i flow st).2 := by
  obtain ⟨out, inv, hst⟩ := invokeInner_state s c a i flow st
  refine evolves_append_record
    { id := s.actions.length, concept := c, action := a, input := i,
      output := out, flow := flow, syncEdges := [], syncTriggered := st }
    rfl ?_ ?_ ?_
  · rw [hst]
  · rw [hst]
  · rw [hst]; exact fun _ hx => hx

theorem evolves_markStep (name : String) (s : EngineState) (a : ActionRecord) :
    Evolves s (markStep name s a) := by
  have hact : (markStep name s a).actions = listModify s.actions a.id
      (fun r => if name ∈ r.syncEdges then r
                else { r with syncEdges := r.syncEdges ++ [name] }) := rfl
  have hidx : (markStep name s a).actionIndex = s.actionIndex := rfl
  have hfir : (markStep name s a).firedSyncs = s.firedSyncs := rfl
  have hlen : (markStep name s a).actions.length = s.actions.length := by
    rw [hact, listModify_length]
  refine ⟨hlen.ge, ?_, ?_, ?_⟩
  · intro j hj
    rw [hact]
    by_cases hjn : j = a.id
    · rw [hjn] at hj ⊢
      rw [listModify_getD_eq hj]
      by_cases hm : name ∈ (s.actions.getD a.id default).syncEdges
      · rw [if_pos hm]
        exact ⟨rfl, fun _ hx => hx⟩
      · rw [if_neg hm]
        exact ⟨rfl, fun _ hx => List.mem_append_left _ hx⟩
    · rw [listModify_getD_ne hjn]
      exact ⟨rfl, fun _ hx => hx⟩
  · rw [hfir]
    exact fun _ hx => hx
  · intro hc
    refine indexConsistent_congr hidx hlen ?_ hc
    intro j hj
    rw [hact]
    by_cases hjn : j = a.id
    · rw [hjn] at hj ⊢
      rw [listModify_getD_eq hj]
      by_cases hm : name ∈ (s.actions.getD a.id default).syncEdges
      · rw [if_pos hm]; exact ⟨rfl, rfl⟩
      · rw [if_neg hm]; exact ⟨rfl, rfl⟩
    · rw [listModify_getD_ne hjn]
      exact ⟨rfl, rfl⟩

theorem evolves_foldl {α : Type} {f : EngineState → α → EngineState}
    (h : ∀ s x, Evolves s (f s x)) :
    ∀ (l : List α) (s : EngineState), Evolves s (l.foldl f s) := by
  intro l
  induction l with
  | nil => exact fun s => evolves_refl s
  | cons x xs ih =>
    intro s
    exact evolves_trans (h s x) (ih (f s x))

theorem evolves_markActions (s : EngineState) (name : String)
    (matched : List (List ActionRecord)) : Evolves s (markActions s name matched) := by
  unfold markActions
  apply evolves_foldl (h := fun s1 acts => evolves_foldl (evolves_markStep name) acts s1)

theorem evolves_fireThens (syncName flow : String) :
    ∀ (thens : List Invocation) (s : EngineState) (binding : Obj) (fired : Bool),
      Evolves s (fireThens syncName flow s thens binding fired).2 := by
  intro thens
  induction thens with
  | nil => intro s binding fired; exact evolves_refl s
  | cons t ts ih =>
    intro s binding fired
    have h1 := evolves_invokeInner s t.concept t.action
      (replaceVarsObj t.input binding) flow true
    simp only [fireThens]
    cases hr : invokeInner s t.concept t.action (replaceVarsObj t.input binding) flow true with
    | mk r s1 =>
      rw [hr] at h1
      cases r with
      | ok output => exact evolves_trans h1 (ih s1 binding true)
      | skipped => exact evolves_trans h1 (ih s1 binding true)
      | conceptNotFound cc =>
        exact evolves_trans h1 (evolves_trans (evolves_errorLog s1
          ("Sync " ++ syncName ++ " failed: Concept " ++ cc ++ " not found"))
          (ih _ binding fired))
      | execError m =>
        exact evolves_trans h1 (evolves_trans (evolves_errorLog s1
          ("Sync " ++ syncName ++ " failed: " ++ m))
          (ih _ binding fired))

theorem evolves_addFired (s : EngineState) (name : String) :
    Evolves s (addFired s name) := by
  unfold addFired
  split
  · exact evolves_refl s
  · exact evolves_of_actions_eq rfl rfl (fun _ hx => List.mem_append_left _ hx)

theorem evolves_fireCombos (sync : SyncRule) (matched : List (List ActionRecord))
    (flow : String) :
    ∀ (combos : List Obj) (s : EngineState) (fired : Bool),
      Evolves s (fireCombos sync matched flow s combos fired).2 := by
  intro combos
  induction combos with
  | nil => intro s fired; exact evolves_refl s
  | cons combo rest ih =>
    intro s fired
    simp only [fireCombos]
    cases hf : fireThens sync.name flow s sync.thens combo fired with
    | mk fired1 s1 =>
      have h1 := evolves_fireThens sync.name flow sync.thens s combo fired
      rw [hf] at h1
      refine evolves_trans h1 (evolves_trans ?_ (ih _ _))
      cases fired1 with
      | true =>
        simp only [if_true]
        exact evolves_trans (evolves_addFired s1 sync.name)
          (evolves_markActions _ sync.name matched)
      | false =>
        simp only [if_false]
        exact evolves_markActions s1 sync.name matched

theorem evolves_tryFireSync (s : EngineState) (sync : SyncRule) :
    Evolves s (tryFireSync s sync).2 := by
  unfold tryFireSync
  split
  · exact evolves_refl s
  · split
    · exact evolves_refl s
    · exact evolves_fireCombos sync _ _ _ s false

theorem evolves_triggerSyncs (s : EngineState) : Evolves s (triggerSyncs s) := by
  unfold triggerSyncs
  have h1 : Evolves s { s with syncTriggering := true } :=
    evolves_of_actions_eq rfl rfl (fun _ hx => hx)
  have h2 := evolves_foldl (fun s1 sync => evolves_tryFireSync s1 sync)
    ({ s with syncTriggering := true } : EngineState).syncs
    { s with syncTriggering := true }
  have h3 : Evolves
      (({ s with syncTriggering := true } : EngineState).syncs.foldl
        (fun t sync => (tryFireSync t sync).2) { s with syncTriggering := true })
      { (({ s with syncTriggering := true } : EngineState).syncs.foldl
        (fun t sync => (tryFireSync t sync).2) { s with syncTriggering := true })
        with syncTriggering := false } :=
    evolves_of_actions_eq rfl rfl (fun _ hx => hx)
  exact evolves_trans h1 (evolves_trans h2 h3)

theorem evolves_invoke (s : EngineState) (c a : String) (i : Obj) (flow : String)
    (st : Bool) : Evolves s (invoke s c a i flow st).2 := by
  unfold invoke
  have h1 := evolves_invokeInner s c a i flow st
  cases hr : invokeInner s c a i flow st with
  | mk r s1 =>
    rw [hr] at h1
    cases r with
    | ok output =>
      simp only [invokeFinish]
      split
      · exact h1
      · exact evolves_trans h1 (evolves_triggerSyncs s1)
    | skipped => exact h1
    | conceptNotFound cc => exact h1
    | execError m =>
      simp only [invokeFinish]
      split
      · exact h1
      · exact evolves_trans h1 (evolves_triggerSyncs s1)

theorem registerSyncCore_frame (s : EngineState) :
    (registerSyncCore s).actions = s.actions ∧
    (registerSyncCore s).actionIndex = s.actionIndex ∧
    (registerSyncCore s).firedSyncs = s.firedSyncs ∧
    (registerSyncCore s).syncs = s.syncs := by
  unfold registerSyncCore
  split <;> exact ⟨rfl, rfl, rfl, rfl⟩

theorem registerSync_frame (s : EngineState) (r : SyncRule) :
    (registerSync s r).actions = s.actions ∧
    (registerSync s r).actionIndex = s.actionIndex ∧
    (registerSync s r).firedSyncs = s.firedSyncs := by
  unfold registerSync
  obtain ⟨h1, h2, h3, h4⟩ := registerSyncCore_frame
    (updateGraph { s with syncs := s.syncs ++ [r] } r)
  rw [h1, h2, h3]
  exact ⟨rfl, rfl, rfl⟩

theorem evolves_applyOp (s : EngineState) (op : EngineOp) :
    Evolves s (applyOp s op) := by
  cases op with
  | regConcept n i =>
    show Evolves s (registerConcept s n i)
    exact evolves_of_actions_eq rfl rfl (fun _ hx => hx)
  | regSync r =>
    obtain ⟨h1, h2, h3⟩ := registerSync_frame s r
    show Evolves s (registerSync s r)
    refine evolves_of_actions_eq h1 h2 ?_
    rw [h3]
    exact fun _ hx => hx
  | inv c a i f =>
    show Evolves s (invoke s c a i f false).2
    exact evolves_invoke s c a i f false

theorem evolves_applyOps (s : EngineState) (ops : List EngineOp) :
    Evolves s (applyOps s ops) :=
  evolves_foldl evolves_applyOp ops s

/-! Facts about `tryFireSync` and `firedSyncs` feeding claim C2. -/

theorem tryFireSync_of_fired {s : EngineState} {sync : SyncRule}
    (h : sync.name ∈ s.firedSyncs) : tryFireSync s sync = (false, s) := by
  unfold tryFireSync
  rw [if_pos h]

theorem addFired_mem (s : EngineState) (name : String) :
    name ∈ (addFired s name).firedSyncs := by
  unfold addFired
  split
  · assumption
  · exact List.mem_append_right _ (List.mem_singleton.mpr rfl)

theorem fireCombos_fired_mem (sync : SyncRule) (matched : List (List ActionRecord))
    (flow : String) :
    ∀ (combos : List Obj) (s : EngineState) (fired : Bool),
      (fired = true → sync.name ∈ s.firedSyncs) →
      (fireCombos sync matched flow s combos fired).1 = true →
      sync.name ∈ (fireCombos sync matched flow s combos fired).2.firedSyncs := by
  intro combos
  induction combos with
  | nil =>
    intro s fired hinv hres
    exact hinv hres
  | cons combo rest ih =>
    intro s fired hinv hres
    simp only [fireCombos] at hres ⊢
    cases hf : fireThens sync.name flow s sync.thens combo fired with
    | mk fired1 s1 =>
      rw [hf] at hres
      dsimp only at hres ⊢
      refine ih _ fired1 ?_ hres
      intro hf1
      subst hf1
      rw [if_pos rfl]
      have h1 : sync.name ∈ (addFired s1 sync.name).firedSyncs :=
        addFired_mem s1 sync.name
      exact (evolves_markActions (addFired s1 sync.name) sync.name matched).2.2.1 h1

theorem tryFireSync_fired_mem (s : EngineState) (sync : SyncRule)
    (h : (tryFireSync s sync).1 = true) :
    sync.name ∈ (tryFireSync s sync).2.firedSyncs := by
  unfold tryFireSync at h ⊢
  by_cases h1 : sync.name ∈ s.firedSyncs
  · rw [if_pos h1] at h
    exact absurd h (by simp)
  · rw [if_neg h1] at h ⊢
    cases h2 : collectMatches s sync.name sync.whens with
    | none =>
      rw [h2] at h
      exact absurd h (by simp)
    | some matched =>
      rw [h2] at h
      exact fireCombos_fired_mem sync matched (flowOf matched) _ s false
        (fun hff => absurd hff (by simp)) h

/-- Claim C2: the engine keeps a process-lifetime `firedSyncs` set that no
operation ever clears, so once a rule's name has entered it (which happens
whenever `tryFireSync` fires the rule), `tryFireSync` returns `false` and
leaves the state unchanged for that rule after any further sequence of engine
operations — every rule fires at most once per engine instance, not once per
cascade. -/
theorem C2_rule_fires_at_most_once_per_instance :
    (∀ (s : EngineState) (r : SyncRule) (ops : List EngineOp),
      r.name ∈ s.firedSyncs →
      r.name ∈ (applyOps s ops).firedSyncs ∧
      tryFireSync (applyOps s ops) r = (false, applyOps s ops)) ∧
    (∀ (s : EngineState) (r : SyncRule),
      (tryFireSync s r).1 = true → r.name ∈ (tryFireSync s r).2.firedSyncs) := by
  constructor
  · intro s r ops h
    have hmem : r.name ∈ (applyOps s ops).firedSyncs :=
      (evolves_applyOps s ops).2.2.1 h
    exact ⟨hmem, tryFireSync_of_fired hmem⟩
  · exact tryFireSync_fired_mem

/-- Witness for C2 at a concrete state: rule `R1` is already in `firedSyncs`;
after an unrelated top-level invoke it is still there and `tryFireSync` is a
no-op returning `false`. -/
theorem C2_witness :
    ruleR1.name ∈ st2.firedSyncs ∧
    ruleR1.name ∈ (applyOps st2 [EngineOp.inv "Q" "b" [] "g"]).firedSyncs ∧
    tryFireSync (applyOps st2 [EngineOp.inv "Q" "b" [] "g"]) ruleR1 =
      (false, applyOps st2 [EngineOp.inv "Q" "b" [] "g"]) := by
  have h0 : ruleR1.name ∈ st2.firedSyncs := by
    show "R1" ∈ ["R1"]
    exact List.mem_singleton.mpr rfl
  have h := C2_rule_fires_at_most_once_per_instance.1 st2 ruleR1
    [EngineOp.inv "Q" "b" [] "g"] h0
  exact ⟨h0, h.1, h.2⟩

/-! Claim C1: loop prevention inside a cascade. -/

/-- Claim C1 (amended): invoking a `(concept, action, input)` signature already
in the cascade's `invokedActions` set returns the `skipped` sentinel and does
not call the concept's `execute` (the result and state are fully determined
without reference to `impl`), but it DOES append a new ActionRecord (with no
output) to the action log and index it: the record is pushed before the
signature check. -/
theorem C1_second_invocation_skipped_but_appended
    (s : EngineState) (c a : String) (i : Obj) (flow : String) (impl : ConceptImpl)
    (hlookup : s.concepts.lookup c = some impl)
    (hmem : (c, a, i) ∈ s.invokedActions) :
    invoke s c a i flow true =
      (.skipped, pushRecord s (newRecord s c a i flow true)) := by
  unfold invoke invokeInner
  simp only [ite_true]
  have h1 : (pushRecord s (newRecord s c a i flow true)).concepts.lookup c
      = some impl := hlookup
  have h2 : (c, a, i) ∈ (pushRecord s (newRecord s c a i flow true)).invokedActions :=
    hmem
  rw [h1]
  dsimp only
  rw [if_pos h2]
  rfl

/-- Counterexample to claim C1 as stated: in `c1State` the top-level invoke of
`(C, a, \x7bx: 1\x7d)` cascades into a second invoke of the identical signature; the
second call is skipped (its record has no output and is sync-triggered) yet a
second ActionRecord was appended, so the log has 2 records where the claim
predicts 1. -/
theorem C1_counterexample :
    c1State.actions.length = 2 ∧
    (c1State.actions.getD 1 default).concept = "C" ∧
    (c1State.actions.getD 1 default).action = "a" ∧
    (c1State.actions.getD 1 default).input = [("x", Value.num 1)] ∧
    (c1State.actions.getD 1 default).output = none ∧
    (c1State.actions.getD 1 default).syncTriggered = true ∧
    ¬ c1State.actions.length = 1 := by
  refine ⟨rfl, rfl, rfl, rfl, rfl, rfl, ?_⟩
  decide

/-- Witness for C1 (amended) at a concrete mid-cascade state: the signature
`(C, a, \x7b\x7d)` is already recorded, `C` is registered, and the second invoke
returns `skipped` while appending one record. -/
theorem C1_witness :
    w1State.concepts.lookup "C" = some implOkC ∧
    ("C", "a", ([] : Obj)) ∈ w1State.invokedActions ∧
    invoke w1State "C" "a" [] "g" true =
      (.skipped, pushRecord w1State (newRecord w1State "C" "a" [] "g" true)) := by
  refine ⟨rfl, ?_, ?_⟩
  · exact List.mem_singleton.mpr rfl
  · exact C1_second_invocation_skipped_but_appended w1State "C" "a" [] "g" implOkC
      rfl (List.mem_singleton.mpr rfl)

/-! Claim C7: the dependency-cycle warning. -/

/-- Claim C7, evaluation at the failing input: rules `A -> B -> C -> A` form a
dependency cycle (each rule's then-invocation targets the next rule's
when-pattern), registration of all three succeeds, yet no cycle warning is
emitted: `updateGraph` only adds edges from the rule being registered to rules
registered earlier, so the edges `A -> B` and `B -> C` are never recorded and
`detectCycles` always sees an acyclic graph.  The claim says a warning naming
all three rules must be emitted. -/
theorem C7_cycle_goes_unwarned :
    (ruleA.thens.getD 0 default).concept = (ruleB.whens.getD 0 default).concept ∧
    (ruleA.thens.getD 0 default).action = (ruleB.whens.getD 0 default).action ∧
    (ruleB.thens.getD 0 default).concept = (ruleC.whens.getD 0 default).concept ∧
    (ruleB.thens.getD 0 default).action = (ruleC.whens.getD 0 default).action ∧
    (ruleC.thens.getD 0 default).concept = (ruleA.whens.getD 0 default).concept ∧
    (ruleC.thens.getD 0 default).action = (ruleA.whens.getD 0 default).action ∧
    c7State.syncs.length = 3 ∧
    c7State.syncGraph = [("A", []), ("B", []), ("C", ["A"])] ∧
    detectCycles c7State = [] ∧
    c7State.warnLog = [] := by
  exact ⟨rfl, rfl, rfl, rfl, rfl, rfl, rfl, rfl, rfl, rfl⟩

/-! Claim C8: when an unknown concept name is detected. -/

/-- Counterexample to claim C8 as stated: registering `ruleRX`, which
references only the unregistered concept `X`, succeeds with no warning and no
error (the embedded `registerSync` has no failure outcome because the source
performs no concept-name validation); the error for the unknown concept is
raised only at request time, when `invoke` is called, after the record was
already appended. -/
theorem C8_counterexample :
    c8State.syncs = [ruleRX] ∧
    c8State.warnLog = [] ∧
    c8State.errorLog = [] ∧
    (invoke c8State "X" "a" [] "f" false).1 = .conceptNotFound "X" ∧
    (invoke c8State "X" "a" [] "f" false).2.actions.length = 1 := by
  exact ⟨rfl, rfl, rfl, rfl, rfl⟩

/-- Claim C8 (amended): the engine performs no concept-name validation at
registration — `registerSync` always appends the rule no matter which concept
names it references — and an unknown concept name raises its error only when
`invoke` is called at request time (after the record is pushed and indexed,
and without running a sweep). -/
theorem C8_unknown_concept_error_at_invoke_time :
    (∀ (s : EngineState) (r : SyncRule), (registerSync s r).syncs = s.syncs ++ [r]) ∧
    (∀ (s : EngineState) (c a : String) (i : Obj) (flow : String),
      s.concepts.lookup c = none →
      invoke s c a i flow false =
        (.conceptNotFound c,
          pushRecord { s with invokedActions := [] }
            (newRecord { s with invokedActions := [] } c a i flow false))) := by
  constructor
  · intro s r
    unfold registerSync
    obtain ⟨h1, h2, h3, h4⟩ := registerSyncCore_frame
      (updateGraph { s with syncs := s.syncs ++ [r] } r)
    rw [h4]
    rfl
  · intro s c a i flow h
    unfold invoke invokeInner
    simp only [Bool.false_eq_true, ite_false]
    have h1 : (pushRecord { s with invokedActions := [] }
        (newRecord { s with invokedActions := [] } c a i flow false)).concepts.lookup c
        = none := h
    rw [h1]
    rfl

/-- Witness for C8 (amended) at the empty state: registration of `ruleRX`
appends it, and invoking the unknown concept `X` errors at request time. -/
theorem C8_witness :
    (({} : EngineState).concepts.lookup "X" = none) ∧
    (registerSync {} ruleRX).syncs = ([] : List SyncRule) ++ [ruleRX] ∧
    invoke {} "X" "a" [] "f" false =
      (.conceptNotFound "X",
        pushRecord { ({} : EngineState) with invokedActions := [] }
          (newRecord { ({} : EngineState) with invokedActions := [] } "X" "a" [] "f" false)) := by
  refine ⟨rfl, ?_, ?_⟩
  · exact C8_unknown_concept_error_at_invoke_time.1 {} ruleRX
  · exact C8_unknown_concept_error_at_invoke_time.2 {} "X" "a" [] "f" rfl

/-! Claim C10: the action index versus the action log. -/

/-- Counterexample to claim C10 as stated: after invoking concept `x:y` action
`z` and concept `x` action `y:z` (distinct `(concept, action)` pairs), both
records land in the single index bucket `x:y:z`, so the entry for key `c:a`
with `c = x`, `a = y:z` contains a record whose concept is `x:y`, not `x` —
it is not exactly the records with concept `c` and action `a`. -/
theorem C10_counterexample :
    ((c10State.actionIndex.lookup "x:y:z").getD []) = [0, 1] ∧
    (c10State.actions.getD 0 default).concept = "x:y" ∧
    (c10State.actions.getD 0 default).action = "z" ∧
    (c10State.actions.getD 1 default).concept = "x" ∧
    (c10State.actions.getD 1 default).action = "y:z" ∧
    ¬ ((c10State.actionIndex.lookup "x:y:z").getD []) = [1] := by
  refine ⟨rfl, rfl, rfl, rfl, rfl, ?_⟩
  decide

/-! Claim C3: when records are marked as consumed. -/

/-- Counterexample to claim C3 as stated: in `c3State`, rule `R2` processed one
binding combination whose only then-invocation failed (concept `D` is not
registered — the error was logged and `firedSyncs` stayed empty, so no
then-invocation succeeded), yet the contributing record was still marked as
consumed by `R2`.  The claim says the mark is applied only when at least one
then-invocation succeeded. -/
theorem C3_counterexample :
    (c3State.actions.getD 0 default).syncEdges = ["R2"] ∧
    c3State.firedSyncs = [] ∧
    c3State.errorLog = ["Sync R2 failed: Concept D not found"] ∧
    (c3State.actions.getD 1 default).concept = "D" ∧
    (c3State.actions.getD 1 default).output = none :=
  ⟨rfl, rfl, rfl, rfl, rfl⟩

/-! Claim C4: one sweep per outermost invoke, single pass, no nesting. -/

theorem invokeInner_syncTriggering (s : EngineState) (c a : String) (i : Obj)
    (flow : String) (st : Bool) :
    (invokeInner s c a i flow st).2.syncTriggering = s.syncTriggering := by
  obtain ⟨out, inv, hst⟩ := invokeInner_state s c a i flow st
  rw [hst]

theorem invokeInner_top_result (s : EngineState) (c a : String) (i : Obj)
    (flow : String) (impl : ConceptImpl)
    (hlookup : s.concepts.lookup c = some impl) :
    (invokeInner s c a i flow false).1 ≠ .skipped ∧
    (∀ cc, (invokeInner s c a i flow false).1 ≠ .conceptNotFound cc) := by
  unfold invokeInner
  simp only [Bool.false_eq_true, ite_false]
  have h1 : (pushRecord { s with invokedActions := [] }
      (newRecord { s with invokedActions := [] } c a i flow false)).concepts.lookup c
      = some impl := hlookup
  rw [h1]
  dsimp only
  have h2 : ¬ ((c, a, i) ∈ (pushRecord { s with invokedActions := [] }
      (newRecord { s with invokedActions := [] } c a i flow false)).invokedActions) :=
    List.not_mem_nil (c, a, i)
  rw [if_neg h2]
  cases he : impl a i with
  | ok output => exact ⟨by simp, fun cc => by simp⟩
  | error msg => exact ⟨by simp, fun cc => by simp⟩

/-- Claim C4: (1) an `invoke` performed while a sweep is active (the
`syncTriggering` flag is set, as it is for every cascade-triggered invocation)
never runs a nested sweep — it is exactly the sweep-free `invokeInner`;
(2) an outermost invoke (flag clear, `syncTriggered = false`) on a registered
concept runs exactly one sweep, `triggerSyncs`, after `invokeInner` finalized
the record (on success and on execution error alike); (3) that sweep is a
single linear `foldl` pass over the registered rules in registration order,
not re-run to a fixpoint. -/
theorem C4_exactly_one_linear_sweep :
    (∀ (s : EngineState) (c a : String) (i : Obj) (flow : String) (st : Bool),
      s.syncTriggering = true →
      invoke s c a i flow st = invokeInner s c a i flow st) ∧
    (∀ (s : EngineState) (c a : String) (i : Obj) (flow : String)
      (impl : ConceptImpl),
      s.syncTriggering = false → s.concepts.lookup c = some impl →
      invoke s c a i flow false =
        ((invokeInner s c a i flow false).1,
          triggerSyncs (invokeInner s c a i flow false).2)) ∧
    (∀ s : EngineState, triggerSyncs s =
      { (s.syncs.foldl (fun t sync => (tryFireSync t sync).2)
          { s with syncTriggering := true }) with syncTriggering := false }) := by
  refine ⟨?_, ?_, fun s => rfl⟩
  · intro s c a i flow st h
    unfold invoke
    have hflag := invokeInner_syncTriggering s c a i flow st
    cases hr : invokeInner s c a i flow st with
    | mk r s1 =>
      rw [hr] at hflag
      have hflag2 : s1.syncTriggering = s.syncTriggering := hflag
      cases r with
      | ok o => simp [invokeFinish, hflag2, h]
      | skipped => rfl
      | conceptNotFound cc => rfl
      | execError m => simp [invokeFinish, hflag2, h]
  · intro s c a i flow impl hflag hlookup
    unfold invoke
    have hst := invokeInner_syncTriggering s c a i flow false
    have hres := invokeInner_top_result s c a i flow impl hlookup
    cases hr : invokeInner s c a i flow false with
    | mk r s1 =>
      rw [hr] at hst hres
      have hst2 : s1.syncTriggering = s.syncTriggering := hst
      cases r with
      | ok o => simp [invokeFinish, hst2, hflag]
      | skipped => exact absurd rfl hres.1
      | conceptNotFound cc => exact absurd rfl (hres.2 cc)
      | execError m => simp [invokeFinish, hst2, hflag]

/-- Witness for C4 at concrete states: with the sweep flag set, invoke is
sweep-free; with it clear and `C` registered, invoke is `invokeInner` followed
by exactly one `triggerSyncs`. -/
theorem C4_witness :
    st4a.syncTriggering = true ∧
    invoke st4a "C" "a" [] "f" true = invokeInner st4a "C" "a" [] "f" true ∧
    st4b.syncTriggering = false ∧
    st4b.concepts.lookup "C" = some implOkC ∧
    invoke st4b "C" "a" [] "f" false =
      ((invokeInner st4b "C" "a" [] "f" false).1,
        triggerSyncs (invokeInner st4b "C" "a" [] "f" false).2) := by
  refine ⟨rfl, ?_, rfl, rfl, ?_⟩
  · exact C4_exactly_one_linear_sweep.1 st4a "C" "a" [] "f" true rfl
  · exact C4_exactly_one_linear_sweep.2.1 st4b "C" "a" [] "f" implOkC rfl rfl

/-! Claim C6: the binding combiner. -/

theorem cartesianStep_length (a b : List Obj) :
    (a.flatMap (fun x => b.map (fun y => spread x y))).length = a.length * b.length := by
  induction a with
  | nil => simp
  | cons x xs ih =>
    simp only [List.flatMap_cons, List.length_append, List.length_map, ih,
      List.length_cons]
    ring

theorem cartesianProduct_go_length (ls : List (List Obj)) :
    ∀ acc : List Obj,
      (ls.foldl (fun a b => a.flatMap (fun x => b.map (fun y => spread x y))) acc).length
        = acc.length * (ls.map List.length).prod := by
  induction ls with
  | nil => intro acc; simp
  | cons b rest ih =>
    intro acc
    simp only [List.foldl_cons, List.map_cons, List.prod_cons]
    rw [ih, cartesianStep_length]
    ring

theorem cartesianProduct_go_mem (ls : List (List Obj)) :
    ∀ (acc : List Obj) (c : Obj),
      c ∈ ls.foldl (fun a b => a.flatMap (fun x => b.map (fun y => spread x y))) acc ↔
        ∃ a ∈ acc, ∃ sel : List Obj,
          List.Forall₂ (fun x l => x ∈ l) sel ls ∧ c = sel.foldl spread a := by
  induction ls with
  | nil =>
    intro acc c
    simp only [List.foldl_nil]
    constructor
    · intro h
      exact ⟨c, h, [], List.Forall₂.nil, rfl⟩
    · rintro ⟨a, ha, sel, hsel, hc⟩
      cases hsel
      simpa [hc] using ha
  | cons b rest ih =>
    intro acc c
    simp only [List.foldl_cons]
    rw [ih]
    constructor
    · rintro ⟨a1, ha1, sel, hsel, hc⟩
      rw [List.mem_flatMap] at ha1
      obtain ⟨a0, ha0, hmap⟩ := ha1
      rw [List.mem_map] at hmap
      obtain ⟨y, hy, hxy⟩ := hmap
      refine ⟨a0, ha0, y :: sel, List.Forall₂.cons hy hsel, ?_⟩
      rw [hc, List.foldl_cons, hxy]
    · rintro ⟨a0, ha0, sel, hsel, hc⟩
      cases hsel with
      | cons h1 h2 =>
        rename_i sy sel'
        refine ⟨spread a0 sy, ?_, sel', h2, ?_⟩
        · rw [List.mem_flatMap]
          exact ⟨a0, ha0, List.mem_map.mpr ⟨sy, h1, rfl⟩⟩
        · rw [hc, List.foldl_cons]

theorem lookup_map_override (x y : Obj) (k : String) :
    (x.map (fun p => match y.lookup p.1 with | some v => (p.1, v) | none => p)).lookup k
      = (x.lookup k).map (fun v => (y.lookup k).getD v) := by
  induction x with
  | nil => rfl
  | cons p ps ih =>
    cases p with
    | mk a b =>
      simp only [List.map_cons]
      by_cases hk : k = a
      · subst hk
        cases hy : y.lookup k with
        | some w => simp [List.lookup, hy]
        | none => simp [List.lookup, hy]
      · have h1 : (k == a) = false := beq_eq_false_iff_ne.mpr hk
        cases hy : y.lookup a with
        | some w => simp [List.lookup, hy, h1, ih]
        | none => simp [List.lookup, hy, h1, ih]

theorem lookup_filter_keys (y x : Obj) (k : String) :
    (y.filter (fun p => (x.lookup p.1).isNone)).lookup k =
      if (x.lookup k).isNone then y.lookup k else none := by
  induction y with
  | nil =>
    simp only [List.filter_nil]
    split <;> rfl
  | cons p ps ih =>
    cases p with
    | mk a b =>
      by_cases hk : k = a
      · subst hk
        cases hx : (x.lookup k).isNone with
        | true => simp [List.filter_cons, hx, List.lookup, ih]
        | false => simp [List.filter_cons, hx, List.lookup, ih]
      · have h1 : (k == a) = false := beq_eq_false_iff_ne.mpr hk
        cases hx : (x.lookup a).isNone with
        | true => simp [List.filter_cons, hx, List.lookup, h1, ih]
        | false => simp [List.filter_cons, hx, List.lookup, h1, ih]

theorem spread_lookup (x y : Obj) (k : String) :
    (spread x y).lookup k = ((y.lookup k).orElse fun _ => x.lookup k) := by
  unfold spread
  rw [lookup_append, lookup_map_override, lookup_filter_keys]
  cases hx : x.lookup k with
  | some v =>
    cases hy : y.lookup k with
    | some w => simp [Option.orElse]
    | none => simp [Option.orElse]
  | none =>
    cases hy : y.lookup k with
    | some w => simp [Option.orElse]
    | none => simp [Option.orElse]

/-- Claim C6: the binding combiner (`cartesianProduct`, applied in
`tryFireSync` before the optional `where` filter via `comboList`) produces
exactly `k1 * ... * kn` combinations from per-pattern candidate lists of
lengths `k1, ..., kn` (in particular when every `ki ≥ 1`), and every
combination is the left-to-right fold of `spread` (JS object spread) over one
chosen binding per pattern list, so on a field-name collision the value of the
later (last) pattern's binding wins, as the `spread_lookup` component shows. -/
theorem C6_cartesian_product_count_and_merge :
    (∀ ls : List (List Obj),
      (cartesianProduct ls).length = (ls.map List.length).prod) ∧
    (∀ (ls : List (List Obj)) (c : Obj),
      c ∈ cartesianProduct ls ↔
        ∃ sel : List Obj, List.Forall₂ (fun x l => x ∈ l) sel ls ∧
          c = sel.foldl spread []) ∧
    (∀ (x y : Obj) (k : String),
      (spread x y).lookup k = ((y.lookup k).orElse fun _ => x.lookup k)) := by
  refine ⟨?_, ?_, spread_lookup⟩
  · intro ls
    unfold cartesianProduct
    rw [cartesianProduct_go_length]
    simp
  · intro ls c
    unfold cartesianProduct
    rw [cartesianProduct_go_mem]
    constructor
    · rintro ⟨a, ha, sel, hsel, hc⟩
      have ha2 : a = [] := List.mem_singleton.mp ha
      subst ha2
      exact ⟨sel, hsel, hc⟩
    · rintro ⟨sel, hsel, hc⟩
      exact ⟨[], List.mem_singleton.mpr rfl, sel, hsel, hc⟩

/-! Claim C9: failure isolation inside a sweep. -/

theorem invokeInner_len (s : EngineState) (c a : String) (i : Obj) (flow : String)
    (st : Bool) :
    (invokeInner s c a i flow st).2.actions.length = s.actions.length + 1 := by
  obtain ⟨out, inv, hst⟩ := invokeInner_state s c a i flow st
  rw [hst]
  simp

theorem fireThens_len (syncName flow : String) :
    ∀ (thens : List Invocation) (s : EngineState) (binding : Obj) (fired : Bool),
      (fireThens syncName flow s thens binding fired).2.actions.length =
        s.actions.length + thens.length := by
  intro thens
  induction thens with
  | nil => intro s binding fired; rfl
  | cons t ts ih =>
    intro s binding fired
    simp only [fireThens]
    have hlen := invokeInner_len s t.concept t.action
      (replaceVarsObj t.input binding) flow true
    cases hr : invokeInner s t.concept t.action (replaceVarsObj t.input binding) flow true with
    | mk r s1 =>
      rw [hr] at hlen
      cases r with
      | ok output =>
        rw [ih s1 binding true]
        have h2 : s1.actions.length = s.actions.length + 1 := hlen
        rw [h2, List.length_cons]
        ring
      | skipped =>
        rw [ih s1 binding true]
        have h2 : s1.actions.length = s.actions.length + 1 := hlen
        rw [h2, List.length_cons]
        ring
      | conceptNotFound cc =>
        rw [ih _ binding fired]
        have h2 : s1.actions.length = s.actions.length + 1 := hlen
        show s1.actions.length + ts.length = s.actions.length + (ts.length + 1)
        rw [h2]
        ring
      | execError m =>
        rw [ih _ binding fired]
        have h2 : s1.actions.length = s.actions.length + 1 := hlen
        show s1.actions.length + ts.length = s.actions.length + (ts.length + 1)
        rw [h2]
        ring

theorem foldl_actions_length {α : Type} {f : EngineState → α → EngineState}
    (h : ∀ s x, (f s x).actions.length = s.actions.length) :
    ∀ (l : List α) (s : EngineState), (l.foldl f s).actions.length = s.actions.length := by
  intro l
  induction l with
  | nil => intro s; rfl
  | cons x xs ih =>
    intro s
    rw [List.foldl_cons, ih, h]

theorem markStep_len (name : String) (s : EngineState) (a : ActionRecord) :
    (markStep name s a).actions.length = s.actions.length := by
  unfold markStep
  exact listModify_length _ _ _

theorem markActions_len (s : EngineState) (name : String)
    (matched : List (List ActionRecord)) :
    (markActions s name matched).actions.length = s.actions.length := by
  unfold markActions
  exact foldl_actions_length
    (fun s1 acts => foldl_actions_length (markStep_len name) acts s1) matched s

theorem addFired_len (s : EngineState) (name : String) :
    (addFired s name).actions.length = s.actions.length := by
  unfold addFired
  split <;> rfl

theorem fireCombos_len (sync : SyncRule) (matched : List (List ActionRecord))
    (flow : String) :
    ∀ (combos : List Obj) (s : EngineState) (fired : Bool),
      (fireCombos sync matched flow s combos fired).2.actions.length =
        s.actions.length + combos.length * sync.thens.length := by
  intro combos
  induction combos with
  | nil => intro s fired; simp [fireCombos]
  | cons combo rest ih =>
    intro s fired
    simp only [fireCombos]
    cases hf : fireThens sync.name flow s sync.thens combo fired with
    | mk fired1 s1 =>
      have h1 := fireThens_len sync.name flow sync.thens s combo fired
      rw [hf] at h1
      have h2 : s1.actions.length = s.actions.length + sync.thens.length := h1
      dsimp only
      rw [ih, markActions_len]
      have h3 : (if fired1 = true then addFired s1 sync.name else s1).actions.length
          = s1.actions.length := by
        split
        · exact addFired_len s1 sync.name
        · rfl
      rw [h3, h2, List.length_cons]
      ring

/-- Claim C9: failures of then-invocations are contained.  (1) For any rule
whose patterns all matched, `tryFireSync` performs exactly one invocation per
(combination, then-invocation) pair — the log grows by exactly
`combos * thens` records — no matter which of those invocations fail, so a
failing then-invocation aborts neither the remaining thens, nor the remaining
combinations, nor the sweep, and is never retried.  (2)/(3) A then-invocation
that throws (unknown concept, or a concept execution error) is caught and
logged to the error log, and `fireThens` simply continues with the remaining
then-invocations of the same combination. -/
theorem C9_then_failure_is_caught_logged_and_isolated :
    (∀ (s : EngineState) (sync : SyncRule) (matched : List (List ActionRecord)),
      sync.name ∉ s.firedSyncs →
      collectMatches s sync.name sync.whens = some matched →
      (tryFireSync s sync).2.actions.length =
        s.actions.length + (comboList sync matched).length * sync.thens.length) ∧
    (∀ (syncName flow : String) (s : EngineState) (t : Invocation)
      (ts : List Invocation) (binding : Obj) (fired : Bool) (m : String),
      (invokeInner s t.concept t.action (replaceVarsObj t.input binding) flow true).1
        = .execError m →
      fireThens syncName flow s (t :: ts) binding fired =
        fireThens syncName flow
          { (invokeInner s t.concept t.action (replaceVarsObj t.input binding) flow true).2
            with errorLog :=
              (invokeInner s t.concept t.action (replaceVarsObj t.input binding) flow true).2.errorLog
              ++ ["Sync " ++ syncName ++ " failed: " ++ m] }
          ts binding fired) ∧
    (∀ (syncName flow : String) (s : EngineState) (t : Invocation)
      (ts : List Invocation) (binding : Obj) (fired : Bool) (cc : String),
      (invokeInner s t.concept t.action (replaceVarsObj t.input binding) flow true).1
        = .conceptNotFound cc →
      fireThens syncName flow s (t :: ts) binding fired =
        fireThens syncName flow
          { (invokeInner s t.concept t.action (replaceVarsObj t.input binding) flow true).2
            with errorLog :=
              (invokeInner s t.concept t.action (replaceVarsObj t.input binding) flow true).2.errorLog
              ++ ["Sync " ++ syncName ++ " failed: Concept " ++ cc ++ " not found"] }
          ts binding fired) := by
  refine ⟨?_, ?_, ?_⟩
  · intro s sync matched h1 h2
    unfold tryFireSync
    rw [if_neg h1, h2]
    dsimp only
    exact fireCombos_len sync matched (flowOf matched) (comboList sync matched) s false
  · intro syncName flow s t ts binding fired m hr
    simp only [fireThens]
    cases hp : invokeInner s t.concept t.action (replaceVarsObj t.input binding) flow true with
    | mk r s1 =>
      rw [hp] at hr
      have hr2 : r = .execError m := hr
      subst hr2
      rfl
  · intro syncName flow s t ts binding fired cc hr
    simp only [fireThens]
    cases hp : invokeInner s t.concept t.action (replaceVarsObj t.input binding) flow true with
    | mk r s1 =>
      rw [hp] at hr
      have hr2 : r = .conceptNotFound cc := hr
      subst hr2
      rfl

/-- Witness for C9 at a concrete state: rule `R9` matches one record and has
two then-invocations that both fail (`D` is unregistered, `C.boom` throws);
the sweep still performs both, appending two records, and logs both errors. -/
theorem C9_witness :
    ruleR9.name ∉ s9State.firedSyncs ∧
    collectMatches s9State ruleR9.name ruleR9.whens = some [[rec0C]] ∧
    (tryFireSync s9State ruleR9).2.actions.length =
      s9State.actions.length + (comboList ruleR9 [[rec0C]]).length * ruleR9.thens.length ∧
    (tryFireSync s9State ruleR9).2.actions.length = 3 ∧
    (tryFireSync s9State ruleR9).2.errorLog =
      ["Sync R9 failed: Concept D not found", "Sync R9 failed: boom"] := by
  refine ⟨?_, rfl, ?_, rfl, rfl⟩
  · intro h
    exact absurd h (List.not_mem_nil _)
  · exact C9_then_failure_is_caught_logged_and_isolated.1 s9State ruleR9 [[rec0C]]
      (fun h => absurd h (List.not_mem_nil _)) rfl

/-! Claim C5: the pattern matcher. -/

theorem matchRecord_iff (obj pattern : Obj) :
    matchRecord obj pattern = true ↔ ∀ kv ∈ pattern, obj.lookup kv.1 = some kv.2 := by
  unfold matchRecord
  rw [List.all_eq_true]
  constructor
  · intro h kv hkv
    have := h kv hkv
    exact beq_iff_eq.mp this
  · intro h kv hkv
    exact beq_iff_eq.mpr (h kv hkv)

/-- Claim C5: `matchWhen` for a pattern and an excluded rule name returns
exactly the log's records whose `concept:action` index key equals the
pattern's, whose input contains every field named in the pattern's
input-constraints with an equal value, whose (possibly absent, then empty)
output contains every field named in the pattern's output-constraints with an
equal value, and which have not been marked as consumed by the excluded rule;
fields not named in the constraints impose nothing, so a pattern with no
constraints matches every not-yet-consumed record of that key (second
component). -/
theorem C5_matchWhen_returns_exactly_matching_records
    (s : EngineState) (p : Pattern) (n : String) (r : ActionRecord)
    (hic : IndexConsistent s) :
    (r ∈ matchWhen s p (some n) ↔
      ∃ i, i < s.actions.length ∧ s.actions.getD i default = r ∧
        recordKey r.concept r.action = recordKey p.concept p.action ∧
        (∀ kv ∈ p.input, r.input.lookup kv.1 = some kv.2) ∧
        (∀ kv ∈ p.output, ((r.output).getD []).lookup kv.1 = some kv.2) ∧
        n ∉ r.syncEdges) ∧
    (p.input = [] → p.output = [] →
      (r ∈ matchWhen s p (some n) ↔
        ∃ i, i < s.actions.length ∧ s.actions.getD i default = r ∧
          recordKey r.concept r.action = recordKey p.concept p.action ∧
          n ∉ r.syncEdges)) := by
  have hcontains : ∀ (l : List String), (l.contains n = false) ↔ n ∉ l := by
    intro l
    constructor
    · intro h hmem
      have h2 : l.contains n = true := List.elem_iff.mpr hmem
      rw [h] at h2
      exact absurd h2 (by simp)
    · intro h
      cases hc : l.contains n with
      | false => rfl
      | true =>
        have h2 : List.elem n l = true := hc
        exact absurd (List.elem_iff.mp h2) h
  have hmain : r ∈ matchWhen s p (some n) ↔
      ∃ i, i < s.actions.length ∧ s.actions.getD i default = r ∧
        recordKey r.concept r.action = recordKey p.concept p.action ∧
        (∀ kv ∈ p.input, r.input.lookup kv.1 = some kv.2) ∧
        (∀ kv ∈ p.output, ((r.output).getD []).lookup kv.1 = some kv.2) ∧
        n ∉ r.syncEdges := by
    unfold matchWhen
    rw [List.mem_filter, List.mem_filterMap]
    rw [hic (recordKey p.concept p.action)]
    constructor
    · rintro ⟨⟨i, hi, hget⟩, hpred⟩
      rw [List.mem_filter, List.mem_range] at hi
      obtain ⟨hilt, hkey⟩ := hi
      obtain ⟨hlt, hx⟩ := List.getElem?_eq_some.mp hget
      have hgetD : s.actions.getD i default = r := by
        rw [List.getD_eq_getElem?_getD, hget]
        rfl
      simp only [Bool.and_eq_true, Bool.not_eq_true'] at hpred
      refine ⟨i, hilt, hgetD, ?_, ?_, ?_, ?_⟩
      · rw [hgetD] at hkey
        exact beq_iff_eq.mp hkey
      · exact (matchRecord_iff _ _).mp hpred.1.1
      · exact (matchRecord_iff _ _).mp hpred.1.2
      · exact (hcontains r.syncEdges).mp hpred.2
    · rintro ⟨i, hilt, hgetD, hkey, hin, hout, hedge⟩
      have hget : s.actions[i]? = some r := by
        rw [List.getElem?_eq_getElem hilt]
        rw [← hgetD, List.getD_eq_getElem?_getD, List.getElem?_eq_getElem hilt]
        rfl
      refine ⟨⟨i, ?_, hget⟩, ?_⟩
      · rw [List.mem_filter, List.mem_range]
        exact ⟨hilt, by rw [hgetD]; exact beq_iff_eq.mpr hkey⟩
      · simp only [Bool.and_eq_true, Bool.not_eq_true']
        exact ⟨⟨(matchRecord_iff _ _).mpr hin, (matchRecord_iff _ _).mpr hout⟩,
          (hcontains r.syncEdges).mpr hedge⟩
  refine ⟨hmain, ?_⟩
  intro hpi hpo
  rw [hmain]
  constructor
  · rintro ⟨i, h1, h2, h3, _, _, h6⟩
    exact ⟨i, h1, h2, h3, h6⟩
  · rintro ⟨i, h1, h2, h3, h6⟩
    refine ⟨i, h1, h2, h3, ?_, ?_, h6⟩
    · rw [hpi]; intro kv hkv; exact absurd hkv (List.not_mem_nil kv)
    · rw [hpo]; intro kv hkv; exact absurd hkv (List.not_mem_nil kv)

/-- Witness for C5 in a concrete consistent state holding one record: the
record is returned for the unconstrained pattern `(C, a)` excluding rule `R2`,
and the characterization instantiates to it. -/
theorem C5_witness :
    IndexConsistent cState5 ∧
    (rec0C ∈ matchWhen cState5 { concept := "C", action := "a" } (some "R2") ↔
      ∃ i, i < cState5.actions.length ∧ cState5.actions.getD i default = rec0C ∧
        recordKey rec0C.concept rec0C.action =
          recordKey ({ concept := "C", action := "a" } : Pattern).concept
            ({ concept := "C", action := "a" } : Pattern).action ∧
        (∀ kv ∈ ({ concept := "C", action := "a" } : Pattern).input,
          rec0C.input.lookup kv.1 = some kv.2) ∧
        (∀ kv ∈ ({ concept := "C", action := "a" } : Pattern).output,
          ((rec0C.output).getD []).lookup kv.1 = some kv.2) ∧
        "R2" ∉ rec0C.syncEdges) ∧
    rec0C ∈ matchWhen cState5 { concept := "C", action := "a" } (some "R2") := by
  have hic : IndexConsistent cState5 :=
    (evolves_invoke (registerConcept {} "C" implOkC) "C" "a" [] "f" false).2.2.2
      (fun key => rfl)
  refine ⟨hic, ?_, ?_⟩
  · exact (C5_matchWhen_returns_exactly_matching_records cState5
      { concept := "C", action := "a" } "R2" rec0C hic).1
  · exact List.mem_singleton.mpr rfl

/-! Claim C3 (amended): the consumed-mark machinery. -/

theorem evolves_syncEdges_mem {s t : EngineState} (h : Evolves s t) {j : Nat}
    (hj : j < s.actions.length) {name : String}
    (hm : name ∈ (s.actions.getD j default).syncEdges) :
    name ∈ (t.actions.getD j default).syncEdges :=
  (h.2.1 j hj).2 hm

theorem matchWhen_mem_log {s : EngineState} {p : Pattern} {n : Option String}
    {r : ActionRecord} (h : r ∈ matchWhen s p n) :
    ∃ i, i < s.actions.length ∧ s.actions.getD i default = r := by
  unfold matchWhen at h
  rw [List.mem_filter] at h
  rw [List.mem_filterMap] at h
  obtain ⟨⟨i, _, hget⟩, _⟩ := h
  obtain ⟨hlt, _⟩ := List.getElem?_eq_some.mp hget
  refine ⟨i, hlt, ?_⟩
  rw [List.getD_eq_getElem?_getD, hget]
  rfl

theorem collectMatches_records (s : EngineState) (name : String) :
    ∀ (ps : List Pattern) (matched : List (List ActionRecord)),
      collectMatches s name ps = some matched →
      ∀ acts ∈ matched, ∀ r0 ∈ acts,
        ∃ i, i < s.actions.length ∧ s.actions.getD i default = r0 := by
  intro ps
  induction ps with
  | nil =>
    intro matched h acts hacts r0 hrec
    unfold collectMatches at h
    have hm : matched = [] := by
      cases h
      rfl
    rw [hm] at hacts
    exact absurd hacts (List.not_mem_nil acts)
  | cons p ps ih =>
    intro matched h acts hacts r0 hrec
    unfold collectMatches at h
    by_cases he : (matchWhen s p (some name)).isEmpty
    · rw [if_pos he] at h
      exact absurd h (by simp)
    · rw [if_neg he] at h
      cases hrest : collectMatches s name ps with
      | none =>
        rw [hrest] at h
        exact absurd h (by simp)
      | some rest =>
        rw [hrest] at h
        have hm : matched = matchWhen s p (some name) :: rest := by
          cases h
          rfl
        rw [hm] at hacts
        cases hacts with
        | head => exact matchWhen_mem_log hrec
        | tail _ htail => exact ih rest hrest acts htail r0 hrec

theorem markStep_marks (name : String) (s : EngineState) (a : ActionRecord)
    (h : a.id < s.actions.length) :
    name ∈ ((markStep name s a).actions.getD a.id default).syncEdges := by
  unfold markStep
  show name ∈ ((listModify s.actions a.id _).getD a.id default).syncEdges
  rw [listModify_getD_eq h]
  by_cases hm : name ∈ (s.actions.getD a.id default).syncEdges
  · rw [if_pos hm]
    exact hm
  · rw [if_neg hm]
    exact List.mem_append_right _ (List.mem_singleton.mpr rfl)

theorem markFold_marks (name : String) :
    ∀ (acts : List ActionRecord) (s : EngineState) (r0 : ActionRecord),
      r0 ∈ acts → r0.id < s.actions.length →
      name ∈ ((acts.foldl (markStep name) s).actions.getD r0.id default).syncEdges := by
  intro acts
  induction acts with
  | nil =>
    intro s r0 hmem
    exact absurd hmem (List.not_mem_nil r0)
  | cons a as ih =>
    intro s r0 hmem hlt
    rw [List.foldl_cons]
    cases hmem with
    | head =>
      have h1 := markStep_marks name s a hlt
      have h2 : a.id < (markStep name s a).actions.length := by
        rw [markStep_len]
        exact hlt
      exact evolves_syncEdges_mem (evolves_foldl (evolves_markStep name) as _) h2 h1
    | tail _ htail =>
      refine ih (markStep name s a) r0 htail ?_
      rw [markStep_len]
      exact hlt

theorem markActions_marks (s : EngineState) (name : String)
    (matched : List (List ActionRecord)) :
    ∀ acts ∈ matched, ∀ r0 ∈ acts, r0.id < s.actions.length →
      name ∈ ((markActions s name matched).actions.getD r0.id default).syncEdges := by
  unfold markActions
  suffices h : ∀ (rest : List (List ActionRecord)) (s : EngineState),
      ∀ acts ∈ rest, ∀ r0 ∈ acts, r0.id < s.actions.length →
      name ∈ ((rest.foldl (fun s acts => acts.foldl (markStep name) s) s).actions.getD
        r0.id default).syncEdges by
    exact h matched s
  intro rest
  induction rest with
  | nil =>
    intro s acts hacts
    exact absurd hacts (List.not_mem_nil acts)
  | cons m rest ih =>
    intro s acts hacts r0 hrec hlt
    rw [List.foldl_cons]
    cases hacts with
    | head =>
      have h1 := markFold_marks name m s r0 hrec hlt
      have h2 : r0.id < (m.foldl (markStep name) s).actions.length := by
        rw [foldl_actions_length (markStep_len name)]
        exact hlt
      exact evolves_syncEdges_mem
        (evolves_foldl (fun s1 acts1 => evolves_foldl (evolves_markStep name) acts1 s1)
          rest _) h2 h1
    | tail _ htail =>
      refine ih (m.foldl (markStep name) s) acts htail r0 hrec ?_
      rw [foldl_actions_length (markStep_len name)]
      exact hlt

theorem fireCombos_marks (sync : SyncRule) (matched : List (List ActionRecord))
    (flow : String) :
    ∀ (combos : List Obj) (s : EngineState) (fired : Bool),
      combos ≠ [] →
      ∀ acts ∈ matched, ∀ r0 ∈ acts, r0.id < s.actions.length →
      sync.name ∈
        ((fireCombos sync matched flow s combos fired).2.actions.getD
          r0.id default).syncEdges := by
  intro combos
  cases combos with
  | nil => intro s fired hne; exact absurd rfl hne
  | cons combo rest =>
    intro s fired hne acts hacts r0 hrec hlt
    simp only [fireCombos]
    cases hf : fireThens sync.name flow s sync.thens combo fired with
    | mk fired1 s1 =>
      dsimp only
      have hev1 := evolves_fireThens sync.name flow sync.thens s combo fired
      rw [hf] at hev1
      have hlt1 : r0.id < s1.actions.length := Nat.lt_of_lt_of_le hlt hev1.1
      have hlt2 : r0.id <
          (if fired1 = true then addFired s1 sync.name else s1).actions.length := by
        split
        · rw [addFired_len]; exact hlt1
        · exact hlt1
      have hmarked := markActions_marks
        (if fired1 = true then addFired s1 sync.name else s1) sync.name matched
        acts hacts r0 hrec hlt2
      have hlt3 : r0.id <
          (markActions (if fired1 = true then addFired s1 sync.name else s1)
            sync.name matched).actions.length := by
        rw [markActions_len]
        exact hlt2
      exact evolves_syncEdges_mem
        (evolves_fireCombos sync matched flow rest _ fired1) hlt3 hmarked

/-- Claim C3 (amended): whenever a rule's patterns all match and at least one
binding combination survives the filter, `tryFireSync` marks every matched
ActionRecord as consumed by the rule's name — unconditionally, for every
combination iteration, whether or not any then-invocation succeeded (the
source's `simplified: mark all involved actions` step); and a record carrying
the mark is excluded by `matchWhen` for that rule, so the same fact
combination cannot fire the rule again. -/
theorem C3_records_marked_regardless_of_then_success :
    (∀ (s : EngineState) (sync : SyncRule) (matched : List (List ActionRecord)),
      IdsOk s →
      sync.name ∉ s.firedSyncs →
      collectMatches s sync.name sync.whens = some matched →
      comboList sync matched ≠ [] →
      ∀ acts ∈ matched, ∀ r0 ∈ acts,
        sync.name ∈
          ((tryFireSync s sync).2.actions.getD r0.id default).syncEdges) ∧
    (∀ (s : EngineState) (p : Pattern) (name : String) (r : ActionRecord),
      name ∈ r.syncEdges → r ∉ matchWhen s p (some name)) := by
  constructor
  · intro s sync matched hids hfired hcollect hne acts hacts r0 hrec
    unfold tryFireSync
    rw [if_neg hfired, hcollect]
    dsimp only
    obtain ⟨i, hilt, hgetD⟩ :=
      collectMatches_records s sync.name sync.whens matched hcollect acts hacts r0 hrec
    have hid : r0.id = i := by
      rw [← hgetD]
      exact hids i hilt
    have hlt : r0.id < s.actions.length := by
      rw [hid]
      exact hilt
    exact fireCombos_marks sync matched (flowOf matched)
      (comboList sync matched) s false hne acts hacts r0 hrec hlt
  · intro s p name r hmem hin
    unfold matchWhen at hin
    rw [List.mem_filter] at hin
    have hpred := hin.2
    simp only [Bool.and_eq_true, Bool.not_eq_true'] at hpred
    have h2 : r.syncEdges.contains name = false := hpred.2
    have h3 : r.syncEdges.contains name = true := List.elem_iff.mpr hmem
    rw [h2] at h3
    exact absurd h3 (by simp)

/-- Witness for C3 (amended) at a concrete state: rule `R2`'s only then fails
(concept `D` unknown), yet after `tryFireSync` the matched record at position
0 is marked as consumed by `R2`. -/
theorem C3_witness :
    IdsOk s5State ∧
    ruleR2.name ∉ s5State.firedSyncs ∧
    collectMatches s5State ruleR2.name ruleR2.whens = some [[rec0C]] ∧
    comboList ruleR2 [[rec0C]] ≠ [] ∧
    "R2" ∈ ((tryFireSync s5State ruleR2).2.actions.getD rec0C.id default).syncEdges := by
  have hids : IdsOk s5State := by
    unfold IdsOk
    decide
  have hne : comboList ruleR2 [[rec0C]] ≠ [] := by
    intro h
    exact absurd h (by decide)
  refine ⟨hids, ?_, rfl, hne, ?_⟩
  · intro h
    exact absurd h (List.not_mem_nil _)
  · exact C3_records_marked_regardless_of_then_success.1 s5State ruleR2 [[rec0C]]
      hids (fun h => absurd h (List.not_mem_nil _)) rfl hne
      [rec0C] (List.mem_singleton.mpr rfl) rec0C (List.mem_singleton.mpr rfl)

/-! Claim C10 (amended): index consistency and log stability. -/

/-- Claim C10 (amended): every engine operation (concept registration, rule
registration, top-level invoke with its whole cascade) preserves the
consistency of the action index with the action log keyed by the
`concept:action` string (each bucket holds exactly the positions of the
records with that key, in log order — distinct `(concept, action)` pairs whose
concatenations coincide share a bucket, see the counterexample); no operation
removes or reorders a record — every surviving position keeps its record's
identity (`stableView`) — and `getActionsByFlow` returns exactly the records
whose flow field equals the argument, in append order. -/
theorem C10_index_matches_log_and_log_is_append_only :
    (∀ (s : EngineState) (op : EngineOp), IndexConsistent s →
      IndexConsistent (applyOp s op) ∧
      s.actions.length ≤ (applyOp s op).actions.length ∧
      (∀ i, i < s.actions.length →
        stableView ((applyOp s op).actions.getD i default) =
          stableView (s.actions.getD i default))) ∧
    (∀ (s : EngineState) (flow : String),
      getActionsByFlow s flow = s.actions.filter (fun a => a.flow == flow)) := by
  constructor
  · intro s op hic
    have h := evolves_applyOp s op
    exact ⟨h.2.2.2 hic, h.1, fun i hi => (h.2.1 i hi).1⟩
  · intro s flow
    rfl

/-- Witness for C10 at the empty state and one top-level invoke (of an
unregistered concept, which still appends and indexes its record). -/
theorem C10_witness :
    IndexConsistent ({} : EngineState) ∧
    IndexConsistent (applyOp {} (EngineOp.inv "c" "a" [] "f")) ∧
    ({} : EngineState).actions.length ≤
      (applyOp {} (EngineOp.inv "c" "a" [] "f")).actions.length ∧
    getActionsByFlow ({} : EngineState) "f" =
      ({} : EngineState).actions.filter (fun a => a.flow == "f") := by
  have h0 : IndexConsistent ({} : EngineState) := fun key => rfl
  have h := C10_index_matches_log_and_log_is_append_only.1 {}
    (EngineOp.inv "c" "a" [] "f") h0
  exact ⟨h0, h.1, h.2.1,
    C10_index_matches_log_and_log_is_append_only.2 {} "f"⟩
